import Mathlib

/-!  Verification of the Hog dice-game simulator (hog.py).

Scores and dice outcomes are Python integers, embedded as `Int`.  Every
division site in the source has a positive divisor, where Python's floor
division `//` and modulus `%` agree with `Int`'s `/` (`Int.ediv`) and `%`
(`Int.emod`).  A dice source is a stateful zero-argument callable; it is
embedded as `DiceState`: a fixed outcome stream together with the count of
invocations made so far.  A call of a Python function that can raise (an
assertion failure or a `ZeroDivisionError`) is embedded as an `Option`
result, `none` meaning the call raises.  The game loop `play` is embedded
with an explicit fuel parameter (`none` when the loop is still running once
the fuel is spent); termination claims are stated as existence of
sufficient fuel. -/

/-- A dice source: the stream of outcomes it will produce (the `i`-th
invocation returns `stream i`), together with how many invocations have been
made so far. -/
structure DiceState where
  stream : Nat → Int
  calls : Nat

/-- One invocation of the dice source. -/
def rollOnce (s : DiceState) : Int × DiceState :=
  (s.stream s.calls, ⟨s.stream, s.calls + 1⟩)

/-- `[dice() for _ in range(n)]`: the list of `n` successive outcomes,
together with the advanced dice source. -/
def rollList : Nat → DiceState → List Int × DiceState
  | 0, s => ([], s)
  | n + 1, s =>
    let p := rollOnce s
    let q := rollList n p.2
    (p.1 :: q.1, q.2)

/-- `roll_dice` from hog.py: assert that `num_rolls` is positive (`none`
when the assertion fails), roll the dice `num_rolls` times, and return 1 if
any outcome is 1 and the sum of the outcomes otherwise. -/
def roll_dice (num_rolls : Int) (dice : DiceState) : Option (Int × DiceState) :=
  if num_rolls ≤ 0 then none
  else
    let r := rollList num_rolls.toNat dice
    some ((if 1 ∈ r.1 then 1 else r.1.sum), r.2)

/-- `boar_brawl` from hog.py. -/
def boar_brawl (player_score opponent_score : Int) : Int :=
  max 1 (3 * |opponent_score / 10 % 10 - player_score % 10|)

/-- `take_turn` from hog.py: assert `0 <= num_rolls <= 10` (`none` when the
assertion fails), then delegate to `boar_brawl` for 0 rolls and to
`roll_dice` otherwise. -/
def take_turn (num_rolls player_score opponent_score : Int) (dice : DiceState) :
    Option (Int × DiceState) :=
  if num_rolls < 0 ∨ 10 < num_rolls then none
  else if num_rolls = 0 then some (boar_brawl player_score opponent_score, dice)
  else roll_dice num_rolls dice

theorem rollList_spec (n : Nat) (s : DiceState) :
    rollList n s =
      ((List.range n).map (fun i => s.stream (s.calls + i)), ⟨s.stream, s.calls + n⟩) := by
  induction n generalizing s with
  | zero => simp [rollList]
  | succ n ih =>
    simp only [rollList, rollOnce]
    rw [ih]
    simp only [List.range_succ_eq_map, List.map_cons, List.map_map, Function.comp]
    have hst : s.calls + 1 + n = s.calls + (n + 1) := by omega
    refine congrArg₂ Prod.mk ?_ (by rw [hst])
    refine congrArg₂ List.cons (by rw [Nat.add_zero]) ?_
    apply List.map_congr_left
    intro a _
    congr 1
    omega

/-- C1: for `1 ≤ num_rolls ≤ 10`, `roll_dice num_rolls dice` succeeds,
invokes the dice source exactly `num_rolls` times (the invocation counter
advances by `num_rolls` and the stream is untouched), and returns 1 when
any of those `num_rolls` outcomes is 1 and the sum of all `num_rolls`
outcomes otherwise. -/
theorem roll_dice_spec (num_rolls : Int) (dice : DiceState)
    (h1 : 1 ≤ num_rolls) (h2 : num_rolls ≤ 10) :
    ∃ v dice', roll_dice num_rolls dice = some (v, dice') ∧
      dice'.calls = dice.calls + num_rolls.toNat ∧
      dice'.stream = dice.stream ∧
      v = if ∃ i < num_rolls.toNat, dice.stream (dice.calls + i) = 1 then 1
          else ((List.range num_rolls.toNat).map (fun i => dice.stream (dice.calls + i))).sum := by
  have hn : ¬ num_rolls ≤ 0 := by omega
  refine ⟨if 1 ∈ (rollList num_rolls.toNat dice).1 then 1 else (rollList num_rolls.toNat dice).1.sum,
    (rollList num_rolls.toNat dice).2, ?_, ?_, ?_, ?_⟩
  · simp only [roll_dice, hn, if_false]
  · rw [rollList_spec]
  · rw [rollList_spec]
  · rw [rollList_spec]
    have hmem : 1 ∈ (List.range num_rolls.toNat).map (fun i => dice.stream (dice.calls + i)) ↔
        ∃ i < num_rolls.toNat, dice.stream (dice.calls + i) = 1 := by
      simp [List.mem_map, List.mem_range]
    rw [if_congr hmem rfl rfl]

/-- Closed witness for `roll_dice_spec` at `num_rolls = 2` and a dice source
that always produces 2. -/
theorem roll_dice_spec_witness :
    ∃ v dice', roll_dice 2 ⟨fun _ => 2, 0⟩ = some (v, dice') ∧
      dice'.calls = (0 : Nat) + (2 : Int).toNat ∧
      dice'.stream = (fun _ => 2) ∧
      v = if ∃ i < (2 : Int).toNat, (2 : Int) = 1 then (1 : Int)
          else ((List.range (2 : Int).toNat).map (fun _ => (2 : Int))).sum :=
  roll_dice_spec 2 ⟨fun _ => 2, 0⟩ (by decide) (by decide)

/-- C4: `boar_brawl` computes `max(1, 3 * |tens_digit(opponent_score) -
ones_digit(player_score)|)` and is always at least 1. -/
theorem boar_brawl_spec (p o : Int) :
    boar_brawl p o = max 1 (3 * |o / 10 % 10 - p % 10|) ∧ 1 ≤ boar_brawl p o :=
  ⟨rfl, le_max_left 1 _⟩

/-- C5: `take_turn` fails exactly when `num_rolls` is outside `[0, 10]`
(never clamping), returns `boar_brawl` of the two scores without touching
the dice when `num_rolls = 0`, and delegates to `roll_dice` when
`1 ≤ num_rolls ≤ 10`. -/
theorem take_turn_spec (num_rolls p o : Int) (dice : DiceState) :
    (take_turn num_rolls p o dice = none ↔ (num_rolls < 0 ∨ 10 < num_rolls)) ∧
    (num_rolls = 0 → take_turn num_rolls p o dice = some (boar_brawl p o, dice)) ∧
    (1 ≤ num_rolls → num_rolls ≤ 10 → take_turn num_rolls p o dice = roll_dice num_rolls dice) := by
  by_cases hout : num_rolls < 0 ∨ 10 < num_rolls
  · refine ⟨⟨fun _ => hout, fun _ => ?_⟩, fun h0 => absurd h0 (by omega),
      fun h1 _ => absurd h1 (by omega)⟩
    rw [take_turn, if_pos hout]
  · push_neg at hout
    refine ⟨⟨fun hnone => ?_, fun hc => absurd hc (by omega)⟩, fun h0 => ?_, fun h1 h2 => ?_⟩
    · exfalso
      rcases eq_or_lt_of_le hout.1 with h0 | h0
      · rw [take_turn, if_neg (by omega), if_pos h0.symm] at hnone
        exact Option.noConfusion hnone
      · rw [take_turn, if_neg (by omega), if_neg (by omega), roll_dice, if_neg (by omega)] at hnone
        exact Option.noConfusion hnone
    · rw [take_turn, if_neg (by omega), if_pos h0]
    · rw [take_turn, if_neg (by omega), if_neg (by omega)]

/-- Closed witness for `take_turn_spec`: rolling 0 dice at scores 3 and 17
returns the Boar Brawl points and leaves the dice untouched. -/
theorem take_turn_spec_witness :
    take_turn 0 3 17 ⟨fun _ => 2, 0⟩ = some (boar_brawl 3 17, ⟨fun _ => 2, 0⟩) :=
  (take_turn_spec 0 3 17 ⟨fun _ => 2, 0⟩).2.1 rfl

/-- The trial-division loop of `is_prime` from hog.py: `while k < n`, return
false on the first divisor found. -/
def is_primeLoop (n k : Int) : Bool :=
  if k < n then
    if n % k = 0 then false else is_primeLoop n (k + 1)
  else true
termination_by (n - k).toNat
decreasing_by omega

/-- `is_prime` from hog.py: 1 is not prime, otherwise trial division from 2. -/
def is_prime (n : Int) : Bool :=
  if n = 1 then false else is_primeLoop n 2

theorem is_primeLoop_iff (n k : Int) :
    is_primeLoop n k = true ↔ ∀ j : Int, k ≤ j → j < n → ¬ j ∣ n := by
  induction k using is_primeLoop.induct n with
  | case1 k hlt hmod =>
    rw [is_primeLoop, if_pos hlt, if_pos hmod]
    simp only [Bool.false_eq_true, false_iff]
    push_neg
    exact ⟨k, le_refl k, hlt, Int.dvd_of_emod_eq_zero hmod⟩
  | case2 k hlt hmod ih =>
    rw [is_primeLoop, if_pos hlt, if_neg hmod]
    rw [ih]
    constructor
    · intro h j hkj hjn
      rcases eq_or_lt_of_le hkj with rfl | hgt
      · exact fun hdvd => hmod (Int.emod_eq_zero_of_dvd hdvd)
      · exact h j (by omega) hjn
    · intro h j hkj hjn
      exact h j (by omega) hjn
  | case3 k hge =>
    rw [is_primeLoop, if_neg hge]
    simp only [true_iff]
    intro j h1 h2
    exact absurd h2 (by omega)

/-- For arguments at least 2, the coded `is_prime` agrees with primality. -/
theorem is_prime_iff (n : Int) (h2 : 2 ≤ n) : is_prime n = true ↔ Nat.Prime n.toNat := by
  rw [is_prime, if_neg (by omega), is_primeLoop_iff, Nat.prime_def_lt']
  constructor
  · intro h
    refine ⟨by omega, fun m hm2 hmn hdvd => ?_⟩
    apply h (m : Int) (by omega) (by omega)
    have hc : (m : Int) ∣ (n.toNat : Int) := Int.natCast_dvd_natCast.mpr hdvd
    rwa [Int.toNat_of_nonneg (by omega)] at hc
  · rintro ⟨-, h⟩ j h2j hjn hdvd
    have hj0 : (0 : Int) ≤ j := by omega
    have hc : j.toNat ∣ n.toNat := by
      rw [← Int.natCast_dvd_natCast, Int.toNat_of_nonneg hj0, Int.toNat_of_nonneg (by omega)]
      exact hdvd
    exact h j.toNat (by omega) (by omega) hc

/-- There is always a later point where the coded `is_prime` holds (used only
to justify termination of the Sus Fuss increment loop). -/
theorem exists_is_prime_ge (s : Int) : ∃ k : Nat, is_prime (s + (k : Int)) = true := by
  obtain ⟨p, hp_ge, hp⟩ := Nat.exists_infinite_primes (s.toNat + 2)
  refine ⟨((p : Int) - s).toNat, ?_⟩
  have heq : s + ((((p : Int) - s).toNat : Nat) : Int) = (p : Int) := by omega
  rw [heq, is_prime_iff _ (by omega)]
  simpa using hp

/-- The Sus Fuss increment loop of `sus_points` from hog.py:
`while not is_prime(score): score += 1`. -/
def susLoop (score : Int) : Int :=
  if hp : is_prime score = true then score else susLoop (score + 1)
termination_by Nat.find (exists_is_prime_ge score)
decreasing_by
  have hfind := Nat.find_spec (exists_is_prime_ge score)
  have hN0 : Nat.find (exists_is_prime_ge score) ≠ 0 := by
    intro h0
    rw [h0] at hfind
    simp only [Nat.cast_zero, add_zero] at hfind
    exact hp hfind
  have hle : Nat.find (exists_is_prime_ge (score + 1)) ≤
      Nat.find (exists_is_prime_ge score) - 1 := by
    apply Nat.find_le
    have heq : score + 1 + (((Nat.find (exists_is_prime_ge score) - 1 : Nat)) : Int) =
        score + ((Nat.find (exists_is_prime_ge score) : Nat) : Int) := by omega
    rw [heq]
    exact hfind
  omega

theorem susLoop_is_prime (s : Int) : is_prime (susLoop s) = true := by
  induction s using susLoop.induct with
  | case1 s hp => rw [susLoop, dif_pos hp]; exact hp
  | case2 s hp ih => rw [susLoop, dif_neg hp]; exact ih

theorem susLoop_ge (s : Int) : s ≤ susLoop s := by
  induction s using susLoop.induct with
  | case1 s hp => rw [susLoop, dif_pos hp]
  | case2 s hp ih => rw [susLoop, dif_neg hp]; omega

theorem susLoop_min (s : Int) : ∀ j, s ≤ j → j < susLoop s → is_prime j = false := by
  induction s using susLoop.induct with
  | case1 s hp =>
    rw [susLoop, dif_pos hp]
    intro j h1 h2
    exact absurd h2 (by omega)
  | case2 s hp ih =>
    rw [susLoop, dif_neg hp]
    intro j h1 h2
    rcases eq_or_lt_of_le h1 with rfl | hgt
    · exact Bool.not_eq_true _ |>.mp hp
    · exact ih j (by omega) h2

theorem ediv_lt_self_aux (a b : Int) (ha : 0 < a) (hb : 1 < b) : a / b < a := by
  have key := Int.ediv_add_emod a b
  have hr : 0 ≤ a % b := Int.emod_nonneg a (by omega)
  have hq : 0 ≤ a / b := Int.ediv_nonneg (by omega) (by omega)
  have hbq : 2 * (a / b) ≤ b * (a / b) := mul_le_mul_of_nonneg_right (by omega) hq
  linarith

/-- The inner advance of `num_factors` from hog.py:
`while prime_factor <= n and not is_prime(prime_factor): prime_factor += 1`. -/
def advancePrime (n k : Int) : Int :=
  if k ≤ n ∧ is_prime k = false then advancePrime n (k + 1) else k
termination_by (n + 1 - k).toNat
decreasing_by omega

theorem advancePrime_ge (n k : Int) : k ≤ advancePrime n k := by
  induction k using advancePrime.induct n with
  | case1 k h ih => rw [advancePrime, if_pos h]; omega
  | case2 k h => rw [advancePrime, if_neg h]

theorem advancePrime_stop (n k : Int) :
    advancePrime n k ≤ n → is_prime (advancePrime n k) = true := by
  induction k using advancePrime.induct n with
  | case1 k h ih => rw [advancePrime, if_pos h]; exact ih
  | case2 k h =>
    rw [advancePrime, if_neg h]
    intro hle
    cases hb : is_prime k with
    | false => exact absurd ⟨hle, hb⟩ h
    | true => rfl

theorem advancePrime_skips (n k : Int) :
    ∀ j, k ≤ j → j < advancePrime n k → j ≤ n ∧ is_prime j = false := by
  induction k using advancePrime.induct n with
  | case1 k h ih =>
    rw [advancePrime, if_pos h]
    intro j h1 h2
    rcases eq_or_lt_of_le h1 with rfl | hgt
    · exact h
    · exact ih j (by omega) h2
  | case2 k h =>
    rw [advancePrime, if_neg h]
    intro j h1 h2
    exact absurd h2 (by omega)

/-- The division loop of `num_factors` from hog.py:
`while n % prime_factor == 0: n //= prime_factor; current_exp += 1`, returning
the final value of `n` and the exponent.  The loop is only ever reached with
`prime_factor >= 2` and `n >= 1`; those bounds appear as guards to make the
recursion well founded. -/
def divideOut (n p : Int) : Int × Nat :=
  if 2 ≤ p ∧ 1 ≤ n ∧ n % p = 0 then
    ((divideOut (n / p) p).1, (divideOut (n / p) p).2 + 1)
  else (n, 0)
termination_by n.toNat
decreasing_by
  all_goals
    have h1 := ediv_lt_self_aux n p (by omega) (by omega)
    omega

theorem divideOut_le (n p : Int) : 0 ≤ n → (divideOut n p).1 ≤ n := by
  induction n, p using divideOut.induct with
  | case1 n p h ih =>
    intro h0
    have hq : 0 ≤ n / p := Int.ediv_nonneg (by omega) (by omega)
    have hlt := ediv_lt_self_aux n p (by omega) (by omega)
    rw [divideOut, if_pos h]
    have := ih hq
    omega
  | case2 n p h =>
    intro h0
    rw [divideOut, if_neg h]

theorem divideOut_spec (n p : Int) : 2 ≤ p → 1 ≤ n →
    n = (divideOut n p).1 * p ^ (divideOut n p).2 ∧
      ¬ (p ∣ (divideOut n p).1) ∧ 1 ≤ (divideOut n p).1 := by
  induction n, p using divideOut.induct with
  | case1 n p h ih =>
    intro hp hn
    have hdvd : p ∣ n := Int.dvd_of_emod_eq_zero h.2.2
    have hmul : n / p * p = n := Int.ediv_mul_cancel hdvd
    have hq1 : 1 ≤ n / p := by
      rcases lt_or_le (n / p) 1 with hq | hq
      · exfalso
        have hq0 : n / p ≤ 0 := by omega
        have : n / p * p ≤ 0 := mul_nonpos_iff.mpr (Or.inr ⟨hq0, by omega⟩)
        omega
      · exact hq
    obtain ⟨hfact, hndvd, hpos⟩ := ih hp hq1
    rw [divideOut, if_pos h]
    refine ⟨?_, hndvd, hpos⟩
    calc n = n / p * p := hmul.symm
    _ = ((divideOut (n / p) p).1 * p ^ (divideOut (n / p) p).2) * p := by rw [← hfact]
    _ = (divideOut (n / p) p).1 * p ^ ((divideOut (n / p) p).2 + 1) := by ring
  | case2 n p h =>
    intro hp hn
    rw [divideOut, if_neg h]
    refine ⟨by ring, fun hdvd => ?_, hn⟩
    exact h ⟨hp, hn, Int.emod_eq_zero_of_dvd hdvd⟩

/-- The outer loop of `num_factors` from hog.py: advance `prime_factor` to
the next value that is past `n` or satisfies `is_prime`, stop when it passes
`n`, otherwise divide it out and multiply `factor_num` by the exponent
plus one. -/
def numFactorsLoop (n prime_factor factor_num : Int) : Int :=
  if 1 < n then
    if advancePrime n (prime_factor + 1) ≤ n then
      numFactorsLoop (divideOut n (advancePrime n (prime_factor + 1))).1
        (advancePrime n (prime_factor + 1))
        (factor_num * (((divideOut n (advancePrime n (prime_factor + 1))).2 : Int) + 1))
    else factor_num
  else factor_num
termination_by (n + 1 - prime_factor).toNat
decreasing_by
  have h1 := advancePrime_ge n (prime_factor + 1)
  have h2 := divideOut_le n (advancePrime n (prime_factor + 1)) (by omega)
  omega

/-- `num_factors` from hog.py. -/
def num_factors (n : Int) : Int := numFactorsLoop n 1 1

theorem numFactorsLoop_correct (n pf acc : Int) :
    1 ≤ n → 1 ≤ pf →
    (∀ q : Nat, Nat.Prime q → (q : Int) ∣ n → pf < (q : Int)) →
    numFactorsLoop n pf acc = acc * (n.toNat.divisors.card : Int) := by
  induction n, pf, acc using numFactorsLoop.induct with
  | case1 n pf acc h1 h2ap ih =>
    intro hn1 hpf hinv
    have hpf'_ge : pf + 1 ≤ advancePrime n (pf + 1) := advancePrime_ge n (pf + 1)
    have hpf'_prime_b : is_prime (advancePrime n (pf + 1)) = true :=
      advancePrime_stop n (pf + 1) h2ap
    have hpf'2 : 2 ≤ advancePrime n (pf + 1) := by omega
    have hpf'_prime : Nat.Prime (advancePrime n (pf + 1)).toNat :=
      (is_prime_iff _ hpf'2).mp hpf'_prime_b
    obtain ⟨hfact, hndvd, hpos⟩ := divideOut_spec n (advancePrime n (pf + 1)) hpf'2 hn1
    have hinv' : ∀ q : Nat, Nat.Prime q →
        (q : Int) ∣ (divideOut n (advancePrime n (pf + 1))).1 →
        advancePrime n (pf + 1) < (q : Int) := by
      intro q hq hqm
      have hq_n : (q : Int) ∣ n := by
        have hq2 : (q : Int) ∣ (divideOut n (advancePrime n (pf + 1))).1 *
            (advancePrime n (pf + 1)) ^ (divideOut n (advancePrime n (pf + 1))).2 :=
          hqm.mul_right _
        rwa [← hfact] at hq2
      have hq_gt := hinv q hq hq_n
      rcases lt_trichotomy ((q : Int)) (advancePrime n (pf + 1)) with hlt | heq | hgt
      · exfalso
        have hsk := (advancePrime_skips n (pf + 1) (q : Int) (by omega) hlt).2
        have htrue : is_prime (q : Int) = true := by
          rw [is_prime_iff _ (by exact_mod_cast hq.two_le)]
          simpa using hq
        rw [hsk] at htrue
        exact Bool.noConfusion htrue
      · exact absurd (heq ▸ hqm) hndvd
      · exact hgt
    have hcall := ih hpos (by omega) hinv'
    rw [numFactorsLoop, if_pos h1, if_pos h2ap, hcall]
    have h0m : (0 : Int) ≤ (divideOut n (advancePrime n (pf + 1))).1 := by omega
    have h0pf : (0 : Int) ≤ advancePrime n (pf + 1) := by omega
    have hnat : n.toNat = (advancePrime n (pf + 1)).toNat ^
        (divideOut n (advancePrime n (pf + 1))).2 *
        (divideOut n (advancePrime n (pf + 1))).1.toNat := by
      have hcast : (((advancePrime n (pf + 1)).toNat ^
          (divideOut n (advancePrime n (pf + 1))).2 *
          (divideOut n (advancePrime n (pf + 1))).1.toNat : Nat) : Int) = ((n.toNat : Nat) : Int) := by
        push_cast
        rw [Int.toNat_of_nonneg h0m, Int.toNat_of_nonneg h0pf,
          Int.toNat_of_nonneg (by omega : (0 : Int) ≤ n)]
        linarith [hfact]
      exact_mod_cast hcast.symm
    have hcop : ((advancePrime n (pf + 1)).toNat ^
        (divideOut n (advancePrime n (pf + 1))).2).Coprime
        (divideOut n (advancePrime n (pf + 1))).1.toNat := by
      apply Nat.Coprime.pow_left
      rw [hpf'_prime.coprime_iff_not_dvd]
      intro hdd
      apply hndvd
      have hc : ((advancePrime n (pf + 1)).toNat : Int) ∣
          ((divideOut n (advancePrime n (pf + 1))).1.toNat : Int) :=
        Int.natCast_dvd_natCast.mpr hdd
      rwa [Int.toNat_of_nonneg h0pf, Int.toNat_of_nonneg h0m] at hc
    have hcard : n.toNat.divisors.card =
        ((divideOut n (advancePrime n (pf + 1))).2 + 1) *
        (divideOut n (advancePrime n (pf + 1))).1.toNat.divisors.card := by
      rw [hnat, Nat.Coprime.card_divisors_mul hcop]
      congr 1
      rw [Nat.divisors_prime_pow hpf'_prime]
      simp [Finset.card_map]
    rw [hcard]
    push_cast
    ring
  | case2 n pf acc h1 h2ap =>
    intro hn1 hpf hinv
    exfalso
    obtain ⟨q, hq_prime, hq_dvd⟩ := Nat.exists_prime_and_dvd (n := n.toNat) (by omega)
    have hq_dvd' : (q : Int) ∣ n := by
      have hc := Int.natCast_dvd_natCast.mpr hq_dvd
      rwa [Int.toNat_of_nonneg (by omega)] at hc
    have hq_gt := hinv q hq_prime hq_dvd'
    have hq_le : (q : Int) ≤ n := by
      have := Nat.le_of_dvd (by omega) hq_dvd
      omega
    rcases lt_or_le ((q : Int)) (advancePrime n (pf + 1)) with hlt | hge
    · have hsk := (advancePrime_skips n (pf + 1) (q : Int) (by omega) hlt).2
      have htrue : is_prime (q : Int) = true := by
        rw [is_prime_iff _ (by exact_mod_cast hq_prime.two_le)]
        simpa using hq_prime
      rw [hsk] at htrue
      exact Bool.noConfusion htrue
    · omega
  | case3 n pf acc h1 =>
    intro hn1 hpf hinv
    have hn : n = 1 := by omega
    subst hn
    rw [numFactorsLoop, if_neg (by omega)]
    simp [Nat.divisors_one]

theorem num_factors_eq_card (n : Int) (hn : 1 ≤ n) :
    num_factors n = (n.toNat.divisors.card : Int) := by
  have h := numFactorsLoop_correct n 1 1 hn (le_refl 1) ?_
  · rw [num_factors, h, one_mul]
  · intro q hq _
    have := hq.two_le
    omega

theorem num_factors_of_nonpos (n : Int) (hn : n ≤ 0) : num_factors n = 1 := by
  rw [num_factors, numFactorsLoop, if_neg (by omega)]

/-- `sus_points` from hog.py: when `num_factors score` is 3 or 4, increment
the score until the coded `is_prime` holds. -/
def sus_points (score : Int) : Int :=
  if num_factors score = 3 ∨ num_factors score = 4 then susLoop score else score

theorem divisors_card_in_34_imp_four_le (m : Nat)
    (h : m.divisors.card = 3 ∨ m.divisors.card = 4) : 4 ≤ m := by
  by_contra hlt
  push_neg at hlt
  interval_cases m <;> revert h <;> decide

theorem prime_card_divisors (p : Nat) (hp : p.Prime) : p.divisors.card = 2 := by
  rw [hp.divisors, Finset.card_insert_of_not_mem (by simp [hp.one_lt.ne]),
    Finset.card_singleton]

/-- C3: for a non-negative score, if the score has exactly 3 or 4 positive
divisors then `sus_points` returns the smallest prime that is at least the
score, and otherwise it returns the score unchanged. -/
theorem sus_points_spec (score : Int) (h0 : 0 ≤ score) :
    (score.toNat.divisors.card = 3 ∨ score.toNat.divisors.card = 4 →
      ∃ p : Nat, sus_points score = (p : Int) ∧ Nat.Prime p ∧ score ≤ (p : Int) ∧
        ∀ q : Nat, Nat.Prime q → score ≤ (q : Int) → p ≤ q) ∧
    (¬(score.toNat.divisors.card = 3 ∨ score.toNat.divisors.card = 4) →
      sus_points score = score) := by
  rcases eq_or_lt_of_le h0 with h00 | hpos
  · have hs : score = 0 := h00.symm
    subst hs
    constructor
    · intro hcard
      exfalso
      revert hcard
      decide
    · intro _
      have h1 : num_factors 0 = 1 := num_factors_of_nonpos 0 (by omega)
      rw [sus_points, if_neg (by omega)]
  · have h1s : 1 ≤ score := hpos
    have hnf := num_factors_eq_card score h1s
    constructor
    · intro hcard
      have h4 : 4 ≤ score.toNat := divisors_card_in_34_imp_four_le _ hcard
      have hcond : num_factors score = 3 ∨ num_factors score = 4 := by omega
      rw [sus_points, if_pos hcond]
      have hge := susLoop_ge score
      have hp : Nat.Prime (susLoop score).toNat :=
        (is_prime_iff _ (by omega)).mp (susLoop_is_prime score)
      refine ⟨(susLoop score).toNat, ?_, hp, by omega, ?_⟩
      · rw [Int.toNat_of_nonneg (by omega)]
      · intro q hq hscore_q
        by_contra hql
        push_neg at hql
        have hfalse := susLoop_min score (q : Int) hscore_q (by omega)
        have htrue : is_prime (q : Int) = true := by
          rw [is_prime_iff _ (by exact_mod_cast hq.two_le)]
          simpa using hq
        rw [hfalse] at htrue
        exact Bool.noConfusion htrue
    · intro hcard
      have hcond : ¬(num_factors score = 3 ∨ num_factors score = 4) := by
        rw [hnf]
        intro hc
        apply hcard
        rcases hc with h | h
        · left; exact_mod_cast h
        · right; exact_mod_cast h
      rw [sus_points, if_neg hcond]

/-- Closed witness for `sus_points_spec` at score 8 (divisors 1, 2, 4, 8). -/
theorem sus_points_spec_witness :
    (0 : Int) ≤ 8 ∧
    (((8 : Int).toNat.divisors.card = 3 ∨ (8 : Int).toNat.divisors.card = 4 →
      ∃ p : Nat, sus_points 8 = (p : Int) ∧ Nat.Prime p ∧ (8 : Int) ≤ (p : Int) ∧
        ∀ q : Nat, Nat.Prime q → (8 : Int) ≤ (q : Int) → p ≤ q) ∧
    (¬((8 : Int).toNat.divisors.card = 3 ∨ (8 : Int).toNat.divisors.card = 4) →
      sus_points 8 = 8)) :=
  ⟨by decide, sus_points_spec 8 (by decide)⟩

/-- C7: `sus_points` is idempotent: when the Sus Fuss rule fires the result
is prime, a prime has exactly two divisors, so a second application leaves
the score unchanged; otherwise the score was already unchanged. -/
theorem sus_points_idempotent (score : Int) :
    sus_points (sus_points score) = sus_points score := by
  by_cases hcond : num_factors score = 3 ∨ num_factors score = 4
  · have h1 : sus_points score = susLoop score := by rw [sus_points, if_pos hcond]
    rw [h1]
    have hs1 : 1 ≤ score := by
      by_contra hs
      push_neg at hs
      have := num_factors_of_nonpos score (by omega)
      omega
    have hcard : score.toNat.divisors.card = 3 ∨ score.toNat.divisors.card = 4 := by
      have := num_factors_eq_card score hs1
      omega
    have h4 : 4 ≤ score.toNat := divisors_card_in_34_imp_four_le _ hcard
    have hgeS := susLoop_ge score
    have hprime : Nat.Prime (susLoop score).toNat :=
      (is_prime_iff _ (by omega)).mp (susLoop_is_prime score)
    have hcard2 : num_factors (susLoop score) = 2 := by
      rw [num_factors_eq_card _ (by omega), prime_card_divisors _ hprime]
      rfl
    rw [sus_points, if_neg (by omega)]
  · have h1 : sus_points score = score := by rw [sus_points, if_neg hcond]
    rw [h1, h1]

/-- `simple_update` from hog.py: old score plus the turn's points. -/
def simple_update (num_rolls player_score opponent_score : Int) (dice : DiceState) :
    Option (Int × DiceState) :=
  match take_turn num_rolls player_score opponent_score dice with
  | none => none
  | some (points, dice') => some (player_score + points, dice')

/-- `sus_update` from hog.py: `sus_points` of the old score plus the turn's
points. -/
def sus_update (num_rolls player_score opponent_score : Int) (dice : DiceState) :
    Option (Int × DiceState) :=
  match take_turn num_rolls player_score opponent_score dice with
  | none => none
  | some (points, dice') => some (sus_points (player_score + points), dice')

/-- `GOAL` from hog.py. -/
def GOAL : Int := 100

/-- The loop of `play` from hog.py with an explicit fuel parameter: while
both scores are below the goal, ask the current player's strategy for a roll
count, apply the update rule to that player's score, and hand the turn to
the other player.  `none` means either that some update raised or that the
loop was still running when the fuel ran out. -/
def playFuel (update : Int → Int → Int → DiceState → Option (Int × DiceState))
    (strategy0 strategy1 : Int → Int → Int) (goal : Int) :
    Nat → Int → Int → Nat → DiceState → Option (Int × Int)
  | 0, _, _, _, _ => none
  | fuel + 1, score0, score1, who, dice =>
    if score0 < goal ∧ score1 < goal then
      if who = 0 then
        match update (strategy0 score0 score1) score0 score1 dice with
        | none => none
        | some (score0', dice') =>
          playFuel update strategy0 strategy1 goal fuel score0' score1 1 dice'
      else
        match update (strategy1 score1 score0) score1 score0 dice with
        | none => none
        | some (score1', dice') =>
          playFuel update strategy0 strategy1 goal fuel score0 score1' 0 dice'
    else some (score0, score1)

/-- `winner` from hog.py over the fueled loop: play one game from 0-0 to
`GOAL` under `sus_update` and return 0 when player 0's final score is
strictly greater, else 1. -/
def winnerFuel (fuel : Nat) (strategy0 strategy1 : Int → Int → Int) (dice : DiceState) :
    Option Nat :=
  match playFuel sus_update strategy0 strategy1 GOAL fuel 0 0 0 dice with
  | none => none
  | some (score0, score1) => some (if score0 > score1 then 0 else 1)

theorem list_sum_ge_length (l : List Int) (h : ∀ x ∈ l, 1 ≤ x) :
    (l.length : Int) ≤ l.sum := by
  induction l with
  | nil => simp
  | cons a l ih =>
    simp only [List.length_cons, List.sum_cons]
    have ha := h a (List.mem_cons_self a l)
    have hl := ih (fun x hx => h x (List.mem_cons_of_mem a hx))
    push_cast
    omega

theorem one_le_boar_brawl (p o : Int) : 1 ≤ boar_brawl p o := le_max_left 1 _

theorem sus_points_ge (s : Int) : s ≤ sus_points s := by
  rw [sus_points]
  split
  · exact susLoop_ge s
  · exact le_refl s

theorem roll_dice_pos (n : Int) (d : DiceState) (hn : 1 ≤ n)
    (hd : ∀ i, 1 ≤ d.stream i) :
    ∃ v d', roll_dice n d = some (v, d') ∧ 1 ≤ v ∧ d'.stream = d.stream := by
  have hle : ¬ n ≤ 0 := by omega
  refine ⟨if 1 ∈ (rollList n.toNat d).1 then 1 else (rollList n.toNat d).1.sum,
    (rollList n.toNat d).2, ?_, ?_, ?_⟩
  · simp only [roll_dice, hle, if_false]
  · by_cases hmem : 1 ∈ (rollList n.toNat d).1
    · rw [if_pos hmem]
    · rw [if_neg hmem]
      simp only [rollList_spec]
      have hall : ∀ x ∈ (List.range n.toNat).map (fun i => d.stream (d.calls + i)), 1 ≤ x := by
        intro x hx
        simp only [List.mem_map, List.mem_range] at hx
        obtain ⟨i, _, rfl⟩ := hx
        exact hd _
      have hlen := list_sum_ge_length _ hall
      simp only [List.length_map, List.length_range] at hlen
      omega
  · simp only [rollList_spec]

theorem take_turn_pos (num_rolls p o : Int) (d : DiceState)
    (h0 : 0 ≤ num_rolls) (h10 : num_rolls ≤ 10) (hd : ∀ i, 1 ≤ d.stream i) :
    ∃ v d', take_turn num_rolls p o d = some (v, d') ∧ 1 ≤ v ∧ d'.stream = d.stream := by
  rcases eq_or_lt_of_le h0 with h00 | hpos
  · refine ⟨boar_brawl p o, d, ?_, one_le_boar_brawl p o, rfl⟩
    rw [take_turn, if_neg (by omega), if_pos h00.symm]
  · obtain ⟨v, d', heq, hv, hs⟩ := roll_dice_pos num_rolls d (by omega) hd
    refine ⟨v, d', ?_, hv, hs⟩
    rw [take_turn, if_neg (by omega), if_neg (by omega), heq]

theorem update_progress (update : Int → Int → Int → DiceState → Option (Int × DiceState))
    (hupd : update = simple_update ∨ update = sus_update)
    (num_rolls p o : Int) (d : DiceState) (h0 : 0 ≤ num_rolls) (h10 : num_rolls ≤ 10)
    (hd : ∀ i, 1 ≤ d.stream i) :
    ∃ s' d', update num_rolls p o d = some (s', d') ∧ p + 1 ≤ s' ∧ d'.stream = d.stream := by
  obtain ⟨v, d', heq, hv, hs⟩ := take_turn_pos num_rolls p o d h0 h10 hd
  rcases hupd with rfl | rfl
  · exact ⟨p + v, d', by rw [simple_update, heq], by omega, hs⟩
  · refine ⟨sus_points (p + v), d', by rw [sus_update, heq], ?_, hs⟩
    have := sus_points_ge (p + v)
    omega

theorem playFuel_some (update : Int → Int → Int → DiceState → Option (Int × DiceState))
    (hupd : update = simple_update ∨ update = sus_update)
    (strategy0 strategy1 : Int → Int → Int)
    (hs0 : ∀ s o, 0 ≤ strategy0 s o ∧ strategy0 s o ≤ 10)
    (hs1 : ∀ s o, 0 ≤ strategy1 s o ∧ strategy1 s o ≤ 10) (goal : Int) :
    ∀ fuel score0 score1 who dice, (∀ i, 1 ≤ dice.stream i) →
      (goal - score0).toNat + (goal - score1).toNat < fuel →
      ∃ r, playFuel update strategy0 strategy1 goal fuel score0 score1 who dice = some r := by
  intro fuel
  induction fuel with
  | zero => intro s0 s1 who d hd hm; omega
  | succ fuel ih =>
    intro s0 s1 who d hd hm
    by_cases hcont : s0 < goal ∧ s1 < goal
    · by_cases hwho : who = 0
      · obtain ⟨s', d', heq, hprog, hstream⟩ := update_progress update hupd
          (strategy0 s0 s1) s0 s1 d (hs0 s0 s1).1 (hs0 s0 s1).2 hd
        have hd' : ∀ i, 1 ≤ d'.stream i := by rw [hstream]; exact hd
        obtain ⟨r, hr⟩ := ih s' s1 1 d' hd' (by omega)
        refine ⟨r, ?_⟩
        rw [playFuel, if_pos hcont, if_pos hwho, heq]
        exact hr
      · obtain ⟨s', d', heq, hprog, hstream⟩ := update_progress update hupd
          (strategy1 s1 s0) s1 s0 d (hs1 s1 s0).1 (hs1 s1 s0).2 hd
        have hd' : ∀ i, 1 ≤ d'.stream i := by rw [hstream]; exact hd
        obtain ⟨r, hr⟩ := ih s0 s' 0 d' hd' (by omega)
        refine ⟨r, ?_⟩
        rw [playFuel, if_pos hcont, if_neg hwho, heq]
        exact hr
    · exact ⟨(s0, s1), by rw [playFuel, if_neg hcont]⟩

/-- C2: under `simple_update` or `sus_update`, with strategies returning roll
counts in `[0, 10]` and a dice source producing only positive outcomes,
every turn strictly increases the moving player's score by at least 1, and
the game loop terminates from 0-0 for every positive goal: some fuel makes
`playFuel` return final scores. -/
theorem play_terminates (strategy0 strategy1 : Int → Int → Int) (dice : DiceState) (goal : Int)
    (hgoal : 0 < goal)
    (hs0 : ∀ s o, 0 ≤ strategy0 s o ∧ strategy0 s o ≤ 10)
    (hs1 : ∀ s o, 0 ≤ strategy1 s o ∧ strategy1 s o ≤ 10)
    (hd : ∀ i, 1 ≤ dice.stream i) :
    (∀ num_rolls p o d, 0 ≤ num_rolls → num_rolls ≤ 10 → (∀ i, 1 ≤ d.stream i) →
      (∃ s' d', simple_update num_rolls p o d = some (s', d') ∧ p + 1 ≤ s') ∧
      (∃ s' d', sus_update num_rolls p o d = some (s', d') ∧ p + 1 ≤ s')) ∧
    (∃ fuel r, playFuel simple_update strategy0 strategy1 goal fuel 0 0 0 dice = some r) ∧
    (∃ fuel r, playFuel sus_update strategy0 strategy1 goal fuel 0 0 0 dice = some r) := by
  refine ⟨?_, ?_, ?_⟩
  · intro num_rolls p o d h0 h10 hdp
    constructor
    · obtain ⟨s', d', heq, hprog, -⟩ := update_progress simple_update (Or.inl rfl)
        num_rolls p o d h0 h10 hdp
      exact ⟨s', d', heq, hprog⟩
    · obtain ⟨s', d', heq, hprog, -⟩ := update_progress sus_update (Or.inr rfl)
        num_rolls p o d h0 h10 hdp
      exact ⟨s', d', heq, hprog⟩
  · obtain ⟨r, hr⟩ := playFuel_some simple_update (Or.inl rfl) strategy0 strategy1 hs0 hs1
      goal (goal.toNat * 2 + 1) 0 0 0 dice hd (by omega)
    exact ⟨goal.toNat * 2 + 1, r, hr⟩
  · obtain ⟨r, hr⟩ := playFuel_some sus_update (Or.inr rfl) strategy0 strategy1 hs0 hs1
      goal (goal.toNat * 2 + 1) 0 0 0 dice hd (by omega)
    exact ⟨goal.toNat * 2 + 1, r, hr⟩

/-- Closed witness for `play_terminates`: both players always roll 5 dice,
the dice always produce 2, the goal is 10. -/
theorem play_terminates_witness :
    ∃ fuel r, playFuel sus_update (fun _ _ => 5) (fun _ _ => 5) 10 fuel 0 0 0
      ⟨fun _ => 2, 0⟩ = some r :=
  (play_terminates (fun _ _ => 5) (fun _ _ => 5) ⟨fun _ => 2, 0⟩ 10 (by norm_num)
    (fun _ _ => ⟨by norm_num, by norm_num⟩) (fun _ _ => ⟨by norm_num, by norm_num⟩)
    (fun _ => by norm_num)).2.2

theorem playFuel_crossing (strategy0 strategy1 : Int → Int → Int)
    (hs0 : ∀ s o, 0 ≤ strategy0 s o ∧ strategy0 s o ≤ 10)
    (hs1 : ∀ s o, 0 ≤ strategy1 s o ∧ strategy1 s o ≤ 10) (goal : Int) :
    ∀ fuel score0 score1 who dice, (∀ i, 1 ≤ dice.stream i) →
      score0 < goal → score1 < goal →
      (goal - score0).toNat + (goal - score1).toNat < fuel →
      ∃ a b, playFuel sus_update strategy0 strategy1 goal fuel score0 score1 who dice
          = some (a, b) ∧ ((goal ≤ a ∧ b < goal) ∨ (goal ≤ b ∧ a < goal)) := by
  intro fuel
  induction fuel with
  | zero => intro s0 s1 who d hd h0 h1 hm; omega
  | succ fuel ih =>
    intro s0 s1 who d hd h0 h1 hm
    have hcont : s0 < goal ∧ s1 < goal := ⟨h0, h1⟩
    by_cases hwho : who = 0
    · obtain ⟨s', d', heq, hprog, hstream⟩ := update_progress sus_update (Or.inr rfl)
        (strategy0 s0 s1) s0 s1 d (hs0 s0 s1).1 (hs0 s0 s1).2 hd
      have hd' : ∀ i, 1 ≤ d'.stream i := by rw [hstream]; exact hd
      by_cases hcross : goal ≤ s'
      · obtain ⟨fuel', rfl⟩ : ∃ f', fuel = f' + 1 := ⟨fuel - 1, by omega⟩
        refine ⟨s', s1, ?_, Or.inl ⟨hcross, h1⟩⟩
        rw [playFuel, if_pos hcont, if_pos hwho, heq]
        show playFuel sus_update strategy0 strategy1 goal (fuel' + 1) s' s1 1 d' = some (s', s1)
        rw [playFuel, if_neg (by omega)]
      · obtain ⟨a, b, hr, hx⟩ := ih s' s1 1 d' hd' (by omega) h1 (by omega)
        refine ⟨a, b, ?_, hx⟩
        rw [playFuel, if_pos hcont, if_pos hwho, heq]
        exact hr
    · obtain ⟨s', d', heq, hprog, hstream⟩ := update_progress sus_update (Or.inr rfl)
        (strategy1 s1 s0) s1 s0 d (hs1 s1 s0).1 (hs1 s1 s0).2 hd
      have hd' : ∀ i, 1 ≤ d'.stream i := by rw [hstream]; exact hd
      by_cases hcross : goal ≤ s'
      · obtain ⟨fuel', rfl⟩ : ∃ f', fuel = f' + 1 := ⟨fuel - 1, by omega⟩
        refine ⟨s0, s', ?_, Or.inr ⟨hcross, h0⟩⟩
        rw [playFuel, if_pos hcont, if_neg hwho, heq]
        show playFuel sus_update strategy0 strategy1 goal (fuel' + 1) s0 s' 0 d' = some (s0, s')
        rw [playFuel, if_neg (by omega)]
      · obtain ⟨a, b, hr, hx⟩ := ih s0 s' 0 d' hd' (by omega) (by omega) (by omega)
        refine ⟨a, b, ?_, hx⟩
        rw [playFuel, if_pos hcont, if_neg hwho, heq]
        exact hr

/-- C6: a game from 0-0 to `GOAL` under `sus_update` with strategies in
`[0, 10]` and positive dice ends with exactly one final score at least
`GOAL` and the other strictly below it, so the final scores are never
equal; `winner` returns 0 exactly when player 0's final score is strictly
greater than player 1's, and the tie branch is unreachable. -/
theorem winner_spec (strategy0 strategy1 : Int → Int → Int) (dice : DiceState)
    (hs0 : ∀ s o, 0 ≤ strategy0 s o ∧ strategy0 s o ≤ 10)
    (hs1 : ∀ s o, 0 ≤ strategy1 s o ∧ strategy1 s o ≤ 10)
    (hd : ∀ i, 1 ≤ dice.stream i) :
    ∃ fuel a b, playFuel sus_update strategy0 strategy1 GOAL fuel 0 0 0 dice = some (a, b) ∧
      ((GOAL ≤ a ∧ b < GOAL) ∨ (GOAL ≤ b ∧ a < GOAL)) ∧ a ≠ b ∧
      winnerFuel fuel strategy0 strategy1 dice = some (if a > b then 0 else 1) ∧
      (winnerFuel fuel strategy0 strategy1 dice = some 0 ↔ b < a) := by
  obtain ⟨a, b, hr, hx⟩ := playFuel_crossing strategy0 strategy1 hs0 hs1 GOAL
    (GOAL.toNat * 2 + 1) 0 0 0 dice hd (by decide) (by decide) (by decide)
  refine ⟨GOAL.toNat * 2 + 1, a, b, hr, hx, ?_, ?_, ?_⟩
  · rcases hx with ⟨hx1, hx2⟩ | ⟨hx1, hx2⟩ <;> omega
  · rw [winnerFuel, hr]
  · rw [winnerFuel, hr]
    show some (if a > b then 0 else 1) = some 0 ↔ b < a
    rcases hx with ⟨hx1, hx2⟩ | ⟨hx1, hx2⟩
    · have hba : b < a := by omega
      rw [if_pos (show a > b from hba)]
      simp [hba]
    · rw [if_neg (show ¬ a > b by omega)]
      constructor
      · intro hcontra
        exact absurd (Option.some.inj hcontra) (by omega)
      · intro hba
        omega

/-- Closed witness for `winner_spec`: both players always roll 5 dice and
the dice always produce 2. -/
theorem winner_spec_witness :
    ∃ fuel a b, playFuel sus_update (fun _ _ => 5) (fun _ _ => 5) GOAL fuel 0 0 0
        ⟨fun _ => 2, 0⟩ = some (a, b) ∧
      ((GOAL ≤ a ∧ b < GOAL) ∨ (GOAL ≤ b ∧ a < GOAL)) ∧ a ≠ b ∧
      winnerFuel fuel (fun _ _ => 5) (fun _ _ => 5) ⟨fun _ => 2, 0⟩
        = some (if a > b then 0 else 1) ∧
      (winnerFuel fuel (fun _ _ => 5) (fun _ _ => 5) ⟨fun _ => 2, 0⟩ = some 0 ↔ b < a) :=
  winner_spec (fun _ _ => 5) (fun _ _ => 5) ⟨fun _ => 2, 0⟩
    (fun _ _ => ⟨by norm_num, by norm_num⟩) (fun _ _ => ⟨by norm_num, by norm_num⟩)
    (fun _ => by norm_num)

/-- Modelled from the spec: `make_test_dice` lives in dice.py, which is not
under src/; per the spec a scripted dice source "cycles deterministically
through a fixed literal sequence".  A fresh scripted source starts at the
head of the sequence with zero invocations made. -/
def make_test_dice (outcomes : List Int) : DiceState :=
  ⟨fun i => outcomes.getD (i % outcomes.length) 0, 0⟩

/-- The sampling of `make_averaged` from hog.py: run the original function
`n` times with identical arguments (the dice state threads through),
collecting the results; `none` as soon as one call raises. -/
def sampleN {σ : Type} (f : σ → Option (Int × σ)) : Nat → σ → Option (List Int × σ)
  | 0, s => some ([], s)
  | n + 1, s =>
    match f s with
    | none => none
    | some (v, s') =>
      match sampleN f n s' with
      | none => none
      | some (vs, s'') => some (v :: vs, s'')

/-- `make_averaged` from hog.py: call the original function `samples_count`
times and return the arithmetic mean of the results; the final division
raises a `ZeroDivisionError` (`none`) when `samples_count` is 0. -/
def make_averaged {σ : Type} (original_function : σ → Option (Int × σ))
    (samples_count : Nat) (s : σ) : Option (ℚ × σ) :=
  match sampleN original_function samples_count s with
  | none => none
  | some (results, s') =>
      if samples_count = 0 then none
      else some (((results.sum : Int) : ℚ) / (samples_count : ℚ), s')

/-- The state reached after `i` successful calls of `f`. -/
def stepThrough {σ : Type} (f : σ → Option (Int × σ)) : Nat → σ → Option σ
  | 0, s => some s
  | n + 1, s =>
    match f s with
    | none => none
    | some (_, s') => stepThrough f n s'

theorem sampleN_char {σ : Type} (f : σ → Option (Int × σ)) :
    ∀ (n : Nat) (s : σ) rs s', sampleN f n s = some (rs, s') →
      rs.length = n ∧ stepThrough f n s = some s' ∧
      (∀ i, i < n → ∃ si vi si', stepThrough f i s = some si ∧ f si = some (vi, si') ∧
        rs.get? i = some vi) := by
  intro n
  induction n with
  | zero =>
    intro s rs s' h
    rw [sampleN, Option.some_inj, Prod.mk.injEq] at h
    obtain ⟨h1, h2⟩ := h
    subst h1
    subst h2
    exact ⟨rfl, rfl, fun i hi => absurd hi (by omega)⟩
  | succ n ih =>
    intro s rs s' h
    cases hf : f s with
    | none =>
      simp only [sampleN, hf] at h
      exact absurd h (by simp)
    | some p =>
      obtain ⟨v, s1⟩ := p
      cases hs : sampleN f n s1 with
      | none =>
        simp only [sampleN, hf, hs] at h
        exact absurd h (by simp)
      | some q =>
        obtain ⟨vs, s2⟩ := q
        simp only [sampleN, hf, hs, Option.some_inj, Prod.mk.injEq] at h
        obtain ⟨h1, h2⟩ := h
        subst h1
        subst h2
        obtain ⟨hlen, hstep, hcall⟩ := ih s1 vs _ hs
        refine ⟨by simp [hlen], ?_, ?_⟩
        · rw [stepThrough, hf]
          exact hstep
        · intro i hi
          cases i with
          | zero => exact ⟨s, v, s1, rfl, hf, rfl⟩
          | succ i =>
            obtain ⟨si, vi, si', ha, hb, hc⟩ := hcall i (by omega)
            refine ⟨si, vi, si', ?_, hb, ?_⟩
            · rw [stepThrough, hf]
              exact ha
            · simpa using hc

theorem roll_dice_one (d : DiceState) :
    roll_dice 1 d = some (d.stream d.calls, ⟨d.stream, d.calls + 1⟩) := by
  have h : ¬ (1 : Int) ≤ 0 := by omega
  simp only [roll_dice, h, if_false, rollList_spec]
  have hr : (List.range (1 : Int).toNat).map (fun i => d.stream (d.calls + i)) =
      [d.stream d.calls] := by
    simp [List.range_succ]
  rw [hr]
  by_cases hx : d.stream d.calls = 1
  · simp [hx]
  · have hmem : ¬ (1 : Int) ∈ [d.stream d.calls] := by
      intro hm
      rw [List.mem_singleton] at hm
      exact hx hm.symm
    simp [hmem]

theorem sampleN_one (g : Nat → Int) : ∀ (n : Nat) (c : Nat),
    sampleN (fun d => roll_dice 1 d) n ⟨g, c⟩ =
      some ((List.range n).map (fun j => g (c + j)), ⟨g, c + n⟩) := by
  intro n
  induction n with
  | zero => intro c; simp [sampleN]
  | succ n ih =>
    intro c
    have hstep : roll_dice 1 (⟨g, c⟩ : DiceState) = some (g c, ⟨g, c + 1⟩) := roll_dice_one _
    simp only [sampleN, hstep, ih (c + 1), List.range_succ_eq_map, List.map_cons, List.map_map,
      Function.comp, Option.some_inj, Prod.mk.injEq, DiceState.mk.injEq]
    refine ⟨congrArg₂ List.cons (by rw [Nat.add_zero]) ?_, trivial, by omega⟩
    apply List.map_congr_left
    intro a _
    congr 1
    omega

/-- C8: when all `samples_count ≥ 1` calls succeed, the function built by
`make_averaged` calls the original function exactly `samples_count` times —
the i-th call running on the state left by the first i calls — and returns
the arithmetic mean of the `samples_count` results; concretely,
`make_averaged(roll_dice, 40)` applied to one die and the test dice
`(4, 2, 5, 1)` returns exactly 3 after 40 dice invocations. -/
theorem make_averaged_spec :
    (∀ (σ : Type) (f : σ → Option (Int × σ)) (n : Nat) (s : σ) rs s',
      1 ≤ n → sampleN f n s = some (rs, s') →
      make_averaged f n s = some (((rs.sum : Int) : ℚ) / (n : ℚ), s') ∧
      rs.length = n ∧
      stepThrough f n s = some s' ∧
      (∀ i, i < n → ∃ si vi si', stepThrough f i s = some si ∧ f si = some (vi, si') ∧
        rs.get? i = some vi)) ∧
    (make_averaged (fun t => roll_dice 1 t) 40 (make_test_dice [4, 2, 5, 1])).map
      (fun r => (r.1, r.2.calls)) = some (3, 40) := by
  constructor
  · intro σ f n s rs s' hn hsample
    obtain ⟨hlen, hstep, hcall⟩ := sampleN_char f n s rs s' hsample
    refine ⟨?_, hlen, hstep, hcall⟩
    simp only [make_averaged, hsample]
    rw [if_neg (by omega)]
  · have h0 : make_test_dice [4, 2, 5, 1] =
        (⟨fun i => ([4, 2, 5, 1] : List Int).getD (i % 4) 0, 0⟩ : DiceState) := rfl
    rw [h0]
    have hs := sampleN_one (fun i => ([4, 2, 5, 1] : List Int).getD (i % 4) 0) 40 0
    simp only [make_averaged, hs]
    rw [if_neg (by omega)]
    have hsum : ((List.range 40).map
        (fun j => (fun i => ([4, 2, 5, 1] : List Int).getD (i % 4) 0) (0 + j))).sum = 120 := by
      decide
    rw [hsum]
    simp only [Option.map_some']
    norm_num

/-- Closed witness for `make_averaged_spec` at a two-sample average of the
constant function returning 5. -/
theorem make_averaged_spec_witness :
    make_averaged (fun t : Unit => some (5, t)) 2 () =
        some (((([5, 5] : List Int).sum : Int) : ℚ) / ((2 : Nat) : ℚ), ()) ∧
      ([5, 5] : List Int).length = 2 ∧
      stepThrough (fun t : Unit => some (5, t)) 2 () = some () ∧
      (∀ i, i < 2 → ∃ si vi si', stepThrough (fun t : Unit => some (5, t)) i () = some si ∧
        (fun t : Unit => some ((5 : Int), t)) si = some (vi, si') ∧
        ([5, 5] : List Int).get? i = some vi) :=
  make_averaged_spec.1 Unit (fun t => some (5, t)) 2 () [5, 5] () (by norm_num) (by decide)

/-- C10: invoking the function built by `make_averaged f 0` calls `f` zero
times (no results are collected and the state is untouched) and fails with
the division by zero instead of returning a number. -/
theorem make_averaged_zero (σ : Type) (f : σ → Option (Int × σ)) (s : σ) :
    make_averaged f 0 s = none ∧ sampleN f 0 s = some ([], s) :=
  ⟨rfl, rfl⟩

/-- The candidate roll counts `range(1, 11)` of `max_scoring_num_rolls`. -/
def rollCandidates : List Int := [1, 2, 3, 4, 5, 6, 7, 8, 9, 10]

/-- The loop of `max_scoring_num_rolls` from hog.py: try each candidate roll
count in increasing order, estimating it with
`make_averaged(roll_dice, samples_count)` (the dice source threads through),
and keep the first candidate whose estimate is strictly larger than the best
seen so far (`max_num, max_score = 0, -1` initially). -/
def msnrLoop (samples_count : Nat) : List Int → Int → ℚ → DiceState → Option Int
  | [], max_num, _, _ => some max_num
  | i :: rest, max_num, max_score, dice =>
    match make_averaged (fun d => roll_dice i d) samples_count dice with
    | none => none
    | some (score, dice') =>
      if max_score < score then msnrLoop samples_count rest i score dice'
      else msnrLoop samples_count rest max_num max_score dice'

/-- `max_scoring_num_rolls` from hog.py. -/
def max_scoring_num_rolls (dice : DiceState) (samples_count : Nat) : Option Int :=
  msnrLoop samples_count rollCandidates 0 (-1) dice

/-- The per-candidate estimates produced by the scan of
`max_scoring_num_rolls`, in candidate order. -/
def estimatesList (samples_count : Nat) : List Int → DiceState → Option (List ℚ)
  | [], _ => some []
  | i :: rest, dice =>
    match make_averaged (fun d => roll_dice i d) samples_count dice with
    | none => none
    | some (score, dice') =>
      match estimatesList samples_count rest dice' with
      | none => none
      | some qs => some (score :: qs)

theorem getD_mem_of_lt {α : Type} (l : List α) (d : α) (j : Nat) (h : j < l.length) :
    l.getD j d ∈ l := by
  rw [List.getD_eq_getElem l d h]
  exact List.getElem_mem h

theorem sampleN_roll_pos (i : Int) (hi : 1 ≤ i) : ∀ (n : Nat) (d : DiceState),
    (∀ m, 1 ≤ d.stream m) →
    ∃ rs d', sampleN (fun t => roll_dice i t) n d = some (rs, d') ∧ rs.length = n ∧
      (∀ x ∈ rs, 1 ≤ x) ∧ d'.stream = d.stream := by
  intro n
  induction n with
  | zero => intro d hd; exact ⟨[], d, rfl, rfl, by simp, rfl⟩
  | succ n ih =>
    intro d hd
    obtain ⟨v, d1, heq, hv, hs⟩ := roll_dice_pos i d hi hd
    obtain ⟨rs, d', hseq, hlen, hall, hs'⟩ := ih d1 (by rw [hs]; exact hd)
    refine ⟨v :: rs, d', ?_, by simp [hlen], ?_, by rw [hs', hs]⟩
    · simp only [sampleN, heq, hseq]
    · intro x hx
      rcases List.mem_cons.mp hx with rfl | hx'
      · exact hv
      · exact hall x hx'

theorem make_averaged_roll_pos (i : Int) (hi : 1 ≤ i) (samples_count : Nat)
    (hsc : 1 ≤ samples_count) (d : DiceState) (hd : ∀ m, 1 ≤ d.stream m) :
    ∃ q d', make_averaged (fun t => roll_dice i t) samples_count d = some (q, d') ∧
      1 ≤ q ∧ d'.stream = d.stream := by
  obtain ⟨rs, d', hseq, hlen, hall, hstream⟩ := sampleN_roll_pos i hi samples_count d hd
  refine ⟨((rs.sum : Int) : ℚ) / (samples_count : ℚ), d', ?_, ?_, hstream⟩
  · simp only [make_averaged, hseq]
    rw [if_neg (by omega)]
  · have hsum : (samples_count : Int) ≤ rs.sum := by
      have := list_sum_ge_length rs hall
      omega
    have hb : (0 : ℚ) < (samples_count : ℚ) := by
      exact_mod_cast Nat.lt_of_lt_of_le Nat.zero_lt_one hsc
    rw [one_le_div hb]
    exact_mod_cast hsum

theorem estimatesList_pos (samples_count : Nat) (hsc : 1 ≤ samples_count) :
    ∀ (cands : List Int), (∀ i ∈ cands, 1 ≤ i) →
      ∀ (dice : DiceState), (∀ m, 1 ≤ dice.stream m) →
      ∃ es, estimatesList samples_count cands dice = some es ∧
        es.length = cands.length ∧ (∀ q ∈ es, 1 ≤ q) := by
  intro cands
  induction cands with
  | nil =>
    intro _ dice _
    exact ⟨[], rfl, rfl, by simp⟩
  | cons i rest ih =>
    intro hc dice hd
    obtain ⟨q, d', hma, hq, hstream⟩ :=
      make_averaged_roll_pos i (hc i (by simp)) samples_count hsc dice hd
    obtain ⟨es, hes, hlen, hall⟩ :=
      ih (fun j hj => hc j (by simp [hj])) d' (by rw [hstream]; exact hd)
    refine ⟨q :: es, ?_, by simp [hlen], ?_⟩
    · simp only [estimatesList, hma, hes]
    · intro x hx
      rcases List.mem_cons.mp hx with rfl | hx'
      · exact hq
      · exact hall x hx'

theorem msnrLoop_argmax (samples_count : Nat) :
    ∀ (cands : List Int) (dice : DiceState) (max_num : Int) (max_score : ℚ) es,
      estimatesList samples_count cands dice = some es →
      ∃ r, msnrLoop samples_count cands max_num max_score dice = some r ∧
        ((r = max_num ∧ ∀ q ∈ es, q ≤ max_score) ∨
         (∃ k, k < es.length ∧ r = cands.getD k 0 ∧ max_score < es.getD k 0 ∧
           (∀ j, j < k → es.getD j 0 < es.getD k 0) ∧
           (∀ j, k < j → j < es.length → es.getD j 0 ≤ es.getD k 0))) := by
  intro cands
  induction cands with
  | nil =>
    intro dice mn ms es h
    rw [estimatesList, Option.some_inj] at h
    subst h
    exact ⟨mn, by rw [msnrLoop], Or.inl ⟨rfl, by simp⟩⟩
  | cons i rest ih =>
    intro dice mn ms es h
    cases hma : make_averaged (fun d => roll_dice i d) samples_count dice with
    | none =>
      simp only [estimatesList, hma] at h
      exact absurd h (by simp)
    | some p =>
      obtain ⟨score, dice'⟩ := p
      cases hrest : estimatesList samples_count rest dice' with
      | none =>
        simp only [estimatesList, hma, hrest] at h
        exact absurd h (by simp)
      | some qs =>
        simp only [estimatesList, hma, hrest, Option.some_inj] at h
        subst h
        by_cases hgt : ms < score
        · obtain ⟨r, hr, hcase⟩ := ih dice' i score qs hrest
          refine ⟨r, ?_, ?_⟩
          · simp only [msnrLoop, hma, if_pos hgt]
            exact hr
          · rcases hcase with ⟨hre, hall⟩ | ⟨k, hk, hrk, hsc, hprev, hpost⟩
            · right
              refine ⟨0, by simp, by simpa using hre, by simpa using hgt, ?_, ?_⟩
              · intro j hj
                exact absurd hj (by omega)
              · intro j hj0 hjlen
                obtain ⟨j', rfl⟩ : ∃ j', j = j' + 1 := ⟨j - 1, by omega⟩
                simp only [List.getD_cons_succ, List.getD_cons_zero]
                have hm : qs.getD j' 0 ∈ qs :=
                  getD_mem_of_lt qs 0 j' (by simp at hjlen; omega)
                linarith [hall _ hm]
            · right
              refine ⟨k + 1, by simpa using hk, by simpa using hrk, ?_, ?_, ?_⟩
              · simp only [List.getD_cons_succ]
                linarith [hsc]
              · intro j hj
                cases j with
                | zero =>
                  simp only [List.getD_cons_zero, List.getD_cons_succ]
                  exact hsc
                | succ j' =>
                  simp only [List.getD_cons_succ]
                  exact hprev j' (by omega)
              · intro j hj1 hj2
                obtain ⟨j', rfl⟩ : ∃ j', j = j' + 1 := ⟨j - 1, by omega⟩
                simp only [List.getD_cons_succ]
                exact hpost j' (by omega) (by simp at hj2; omega)
        · obtain ⟨r, hr, hcase⟩ := ih dice' mn ms qs hrest
          refine ⟨r, ?_, ?_⟩
          · simp only [msnrLoop, hma, if_neg hgt]
            exact hr
          · rcases hcase with ⟨hre, hall⟩ | ⟨k, hk, hrk, hsc, hprev, hpost⟩
            · left
              refine ⟨hre, ?_⟩
              intro q hq
              rcases List.mem_cons.mp hq with rfl | hq'
              · linarith [le_of_not_lt hgt]
              · exact hall q hq'
            · right
              refine ⟨k + 1, by simpa using hk, by simpa using hrk, by simpa using hsc, ?_, ?_⟩
              · intro j hj
                cases j with
                | zero =>
                  simp only [List.getD_cons_zero, List.getD_cons_succ]
                  linarith [le_of_not_lt hgt, hsc]
                | succ j' =>
                  simp only [List.getD_cons_succ]
                  exact hprev j' (by omega)
              · intro j hj1 hj2
                obtain ⟨j', rfl⟩ : ∃ j', j = j' + 1 := ⟨j - 1, by omega⟩
                simp only [List.getD_cons_succ]
                exact hpost j' (by omega) (by simp at hj2; omega)

theorem roll_dice_test16 (i : Int) (hi : 2 ≤ i) (c : Nat) :
    roll_dice i ⟨fun m => ([1, 6] : List Int).getD (m % 2) 0, c⟩ =
      some (1, ⟨fun m => ([1, 6] : List Int).getD (m % 2) 0, c + i.toNat⟩) := by
  have h : ¬ i ≤ 0 := by omega
  simp only [roll_dice, h, if_false, rollList_spec]
  have hmem : (1 : Int) ∈ (List.range i.toNat).map
      (fun j => ([1, 6] : List Int).getD ((c + j) % 2) 0) := by
    simp only [List.mem_map, List.mem_range]
    have hc : c % 2 = 0 ∨ c % 2 = 1 := by omega
    rcases hc with hc | hc
    · refine ⟨0, by omega, ?_⟩
      have h20 : (c + 0) % 2 = 0 := by omega
      rw [h20]
      rfl
    · refine ⟨1, by omega, ?_⟩
      have h20 : (c + 1) % 2 = 0 := by omega
      rw [h20]
      rfl
  rw [if_pos hmem]

theorem sampleN_roll_test16 (i : Int) (hi : 2 ≤ i) : ∀ (n : Nat) (c : Nat),
    sampleN (fun d => roll_dice i d) n ⟨fun m => ([1, 6] : List Int).getD (m % 2) 0, c⟩ =
      some (List.replicate n 1,
        ⟨fun m => ([1, 6] : List Int).getD (m % 2) 0, c + n * i.toNat⟩) := by
  intro n
  induction n with
  | zero => intro c; simp [sampleN]
  | succ n ih =>
    intro c
    simp only [sampleN, roll_dice_test16 i hi c, ih (c + i.toNat), List.replicate_succ,
      Option.some_inj, Prod.mk.injEq, DiceState.mk.injEq]
    refine ⟨trivial, trivial, by ring⟩

theorem ma_roll_test16_ge2 (i : Int) (hi : 2 ≤ i) (c : Nat) :
    make_averaged (fun d => roll_dice i d) 1000
        ⟨fun m => ([1, 6] : List Int).getD (m % 2) 0, c⟩ =
      some (1, ⟨fun m => ([1, 6] : List Int).getD (m % 2) 0, c + 1000 * i.toNat⟩) := by
  simp only [make_averaged, sampleN_roll_test16 i hi 1000 c]
  rw [if_neg (by omega)]
  have hsum : (List.replicate 1000 (1 : Int)).sum = 1000 := by
    rw [List.sum_replicate, nsmul_eq_mul, mul_one]
    norm_num
  rw [hsum]
  norm_num

theorem sum_alt16 : ∀ m : Nat, ((List.range (2 * m)).map
    (fun j => ([1, 6] : List Int).getD (j % 2) 0)).sum = 7 * m := by
  intro m
  induction m with
  | zero => rfl
  | succ m ih =>
    have h2 : 2 * (m + 1) = (2 * m + 1) + 1 := by omega
    rw [h2, List.range_succ, List.map_append, List.sum_append, List.range_succ,
      List.map_append, List.sum_append, ih]
    have ha : (2 * m) % 2 = 0 := by omega
    have hb : (2 * m + 1) % 2 = 1 := by omega
    simp only [List.map_cons, List.map_nil, List.sum_cons, List.sum_nil, ha, hb]
    have hg0 : ([1, 6] : List Int).getD 0 0 = 1 := rfl
    have hg1 : ([1, 6] : List Int).getD 1 0 = 6 := rfl
    rw [hg0, hg1]
    push_cast
    ring

theorem ma_roll_test16_one :
    make_averaged (fun d => roll_dice 1 d) 1000
        ⟨fun m => ([1, 6] : List Int).getD (m % 2) 0, 0⟩ =
      some (7 / 2, ⟨fun m => ([1, 6] : List Int).getD (m % 2) 0, 1000⟩) := by
  simp only [make_averaged,
    sampleN_one (fun m => ([1, 6] : List Int).getD (m % 2) 0) 1000 0]
  rw [if_neg (by omega)]
  have hsum : ((List.range 1000).map
      (fun j => ([1, 6] : List Int).getD ((0 + j) % 2) 0)).sum = 3500 := by
    simp only [Nat.zero_add]
    have h1000 : (1000 : Nat) = 2 * 500 := by norm_num
    rw [h1000, sum_alt16 500]
    norm_num
  rw [hsum]
  norm_num

theorem msnrLoop_cons_some {samples_count : Nat} {i : Int} {rest : List Int} {max_num : Int}
    {max_score : ℚ} {dice : DiceState} {q : ℚ} {dice' : DiceState}
    (hma : make_averaged (fun t => roll_dice i t) samples_count dice = some (q, dice')) :
    msnrLoop samples_count (i :: rest) max_num max_score dice =
      if max_score < q then msnrLoop samples_count rest i q dice'
      else msnrLoop samples_count rest max_num max_score dice' := by
  simp only [msnrLoop, hma]

/-- C9: with positive dice and at least one sample per estimate,
`max_scoring_num_rolls` computes an estimate for each candidate roll count
1 through 10 in increasing order and returns the first candidate whose
estimate is maximal — every earlier estimate is strictly smaller and no
later estimate is larger; concretely, with the scripted dice `(1, 6)` and
the default 1000 samples it returns 1. -/
theorem max_scoring_num_rolls_spec (dice : DiceState) (samples_count : Nat)
    (hsc : 1 ≤ samples_count) (hd : ∀ m, 1 ≤ dice.stream m) :
    (∃ (es : List ℚ) (k : Nat), estimatesList samples_count rollCandidates dice = some es ∧
      es.length = 10 ∧ k < 10 ∧
      max_scoring_num_rolls dice samples_count = some ((k : Int) + 1) ∧
      (∀ j, j < k → es.getD j 0 < es.getD k 0) ∧
      (∀ j, j < 10 → es.getD j 0 ≤ es.getD k 0)) ∧
    max_scoring_num_rolls (make_test_dice [1, 6]) 1000 = some 1 := by
  constructor
  · obtain ⟨es, hes, hlen, hall⟩ :=
      estimatesList_pos samples_count hsc rollCandidates (by decide) dice hd
    obtain ⟨r, hr, hcase⟩ := msnrLoop_argmax samples_count rollCandidates dice 0 (-1) es hes
    have hlen10 : es.length = 10 := by simpa [rollCandidates] using hlen
    rcases hcase with ⟨-, hall'⟩ | ⟨k, hk, hrk, hsc', hprev, hpost⟩
    · exfalso
      have hmem : es.getD 0 0 ∈ es := getD_mem_of_lt es 0 0 (by omega)
      linarith [hall _ hmem, hall' _ hmem]
    · have hk10 : k < 10 := by omega
      have hcand : rollCandidates.getD k 0 = (k : Int) + 1 := by
        interval_cases k <;> rfl
      refine ⟨es, k, hes, hlen10, hk10, ?_, hprev, ?_⟩
      · rw [max_scoring_num_rolls, hr, hrk, hcand]
      · intro j hj
        rcases lt_trichotomy j k with h | h | h
        · exact le_of_lt (hprev j h)
        · exact le_of_eq (by rw [h])
        · exact hpost j h (by omega)
  · have hmk : make_test_dice [1, 6] =
        (⟨fun m => ([1, 6] : List Int).getD (m % 2) 0, 0⟩ : DiceState) := rfl
    rw [max_scoring_num_rolls, rollCandidates, hmk]
    rw [msnrLoop_cons_some ma_roll_test16_one, if_pos (by norm_num)]
    rw [msnrLoop_cons_some (ma_roll_test16_ge2 2 (by norm_num) _), if_neg (by norm_num)]
    rw [msnrLoop_cons_some (ma_roll_test16_ge2 3 (by norm_num) _), if_neg (by norm_num)]
    rw [msnrLoop_cons_some (ma_roll_test16_ge2 4 (by norm_num) _), if_neg (by norm_num)]
    rw [msnrLoop_cons_some (ma_roll_test16_ge2 5 (by norm_num) _), if_neg (by norm_num)]
    rw [msnrLoop_cons_some (ma_roll_test16_ge2 6 (by norm_num) _), if_neg (by norm_num)]
    rw [msnrLoop_cons_some (ma_roll_test16_ge2 7 (by norm_num) _), if_neg (by norm_num)]
    rw [msnrLoop_cons_some (ma_roll_test16_ge2 8 (by norm_num) _), if_neg (by norm_num)]
    rw [msnrLoop_cons_some (ma_roll_test16_ge2 9 (by norm_num) _), if_neg (by norm_num)]
    rw [msnrLoop_cons_some (ma_roll_test16_ge2 10 (by norm_num) _), if_neg (by norm_num)]
    rw [msnrLoop]

/-- Closed witness for `max_scoring_num_rolls_spec` at a dice source that
always produces 2 and one sample per candidate. -/
theorem max_scoring_num_rolls_spec_witness :
    (∃ (es : List ℚ) (k : Nat), estimatesList 1 rollCandidates ⟨fun _ => 2, 0⟩ = some es ∧
      es.length = 10 ∧ k < 10 ∧
      max_scoring_num_rolls ⟨fun _ => 2, 0⟩ 1 = some ((k : Int) + 1) ∧
      (∀ j, j < k → es.getD j 0 < es.getD k 0) ∧
      (∀ j, j < 10 → es.getD j 0 ≤ es.getD k 0)) ∧
    max_scoring_num_rolls (make_test_dice [1, 6]) 1000 = some 1 :=
  max_scoring_num_rolls_spec ⟨fun _ => 2, 0⟩ 1 (by norm_num) (fun _ => by norm_num)
